import Mathlib

/-!
Verification of the streaming response protocol handler and conversation-state
logic of the LLM browser-extension chat client.

The JavaScript source is embedded shallowly:

* JS strings are modelled as `List Char` (`Str`), so that `String.prototype`
  operations (`split('\n')`, `trim()`, `startsWith`, `slice`) become executable
  Lean functions with provable equations.
* `JSON.parse` is modelled by an executable recursive-descent parser
  `jsonParse` over a `JsonValue` inductive covering the JSON fragment used by
  both wire formats (strings, integers, booleans, null, arrays, objects).
* The streaming read loop of `LLMManager.handleStreamResponse` is modelled as
  a fold over the list of successful reads (each read delivering the decoded
  text of one chunk, as produced by `TextDecoder` in streaming mode), followed
  by either normal exhaustion or a read error; callback invocations are
  reified as an ordered event list.
-/

set_option maxHeartbeats 1000000

namespace LLMExt

/-- JS strings, modelled at character level. -/
abbrev Str := List Char

/-- Model of JS `String.prototype.trim()`: strip whitespace from both ends. -/
def trimL (s : Str) : Str :=
  ((s.dropWhile Char.isWhitespace).reverse.dropWhile Char.isWhitespace).reverse

theorem trimL_eq_nil_iff (s : Str) : trimL s = [] ↔ ∀ c ∈ s, c.isWhitespace := by
  unfold trimL
  rw [List.reverse_eq_nil_iff, List.dropWhile_eq_nil_iff]
  constructor
  · intro h c hc
    by_cases hw : (s.dropWhile Char.isWhitespace) = []
    · exact (List.dropWhile_eq_nil_iff.mp hw) c hc
    · rcases List.exists_mem_of_ne_nil _ hw with ⟨d, hd⟩
      rcases List.mem_reverse.mpr hd with hd'
      -- every element of the suffix is whitespace, and the dropped prefix is whitespace
      have hall : ∀ x ∈ s.dropWhile Char.isWhitespace, x.isWhitespace := by
        intro x hx
        exact h x (List.mem_reverse.mpr hx)
      -- elements of s are either in the dropped prefix (whitespace) or the suffix
      have : s = s.takeWhile Char.isWhitespace ++ s.dropWhile Char.isWhitespace :=
        (List.takeWhile_append_dropWhile (p := Char.isWhitespace) (l := s)).symm
      rw [this] at hc
      rcases List.mem_append.mp hc with h1 | h2
      · exact List.mem_takeWhile_imp h1
      · exact hall c h2
  · intro h c hc
    exact h c ((List.dropWhile_suffix _).sublist.subset (List.mem_reverse.mp hc))

theorem trimL_append_ne_nil (a b : Str) (h : trimL a ≠ []) :
    trimL (a ++ b) ≠ [] := by
  intro hab
  apply h
  rw [trimL_eq_nil_iff] at hab ⊢
  intro c hc
  exact hab c (List.mem_append_left _ hc)

/-- Model of JS `buffer.split('\n')`: always yields at least one (possibly
empty) segment; a trailing newline yields a trailing empty segment. -/
def splitNl : Str → List Str
  | [] => [[]]
  | c :: cs =>
    let r := splitNl cs
    if c = '\n' then [] :: r else (c :: r.headD []) :: r.tail

@[simp] theorem splitNl_nil : splitNl [] = [[]] := rfl

theorem splitNl_cons_nl (cs : Str) : splitNl ('\n' :: cs) = [] :: splitNl cs := by
  simp [splitNl]

theorem splitNl_cons_ne (c : Char) (cs : Str) (h : c ≠ '\n') :
    splitNl (c :: cs) = (c :: (splitNl cs).headD []) :: (splitNl cs).tail := by
  simp [splitNl, h]

theorem splitNl_ne_nil (s : Str) : splitNl s ≠ [] := by
  cases s with
  | nil => simp
  | cons c cs =>
    by_cases h : c = '\n'
    · subst h; rw [splitNl_cons_nl]; simp
    · rw [splitNl_cons_ne c cs h]; simp

theorem headD_cons_tail {α : Type} (l : List α) (h : l ≠ []) (d : α) :
    l.headD d :: l.tail = l := by
  cases l with
  | nil => exact absurd rfl h
  | cons a as => rfl

/-- Splitting a concatenation: the last (incomplete) segment of `a` fuses with
the first segment of `b`. This is the heart of split-boundary invariance. -/
theorem splitNl_append (a b : Str) :
    splitNl (a ++ b) =
      (splitNl a).dropLast ++
        (((splitNl a).getLastD [] ++ (splitNl b).headD []) :: (splitNl b).tail) := by
  induction a with
  | nil =>
    rcases hb : splitNl b with _ | ⟨l, ls⟩
    · exact absurd hb (splitNl_ne_nil b)
    · simp [hb]
  | cons c cs ih =>
    by_cases h : c = '\n'
    · subst h
      rw [List.cons_append, splitNl_cons_nl, splitNl_cons_nl, ih]
      rcases hr : splitNl cs with _ | ⟨l, ls⟩
      · exact absurd hr (splitNl_ne_nil cs)
      · simp [List.getLastD_cons]
    · rw [List.cons_append, splitNl_cons_ne c _ h, splitNl_cons_ne c _ h, ih]
      rcases hr : splitNl cs with _ | ⟨l, ls⟩
      · exact absurd hr (splitNl_ne_nil cs)
      · rcases ls with _ | ⟨l2, ls2⟩
        · simp
        · simp [List.getLastD_cons]

/-!
### Chunk Decoder

Model of the buffering logic of `LLMManager.handleStreamResponse`:

    buffer += decoder.decode(value, { stream: true });
    const lines = buffer.split('\n');
    buffer = lines.pop() || '';

Each read appends to the carry buffer, splits on newlines, yields all complete
segments and retains the trailing (possibly empty) segment as the new buffer.
-/

/-- One decode step: previous carry buffer plus one newly read piece of text
yields the complete lines and the new carry buffer. -/
def decodeStep (buffer piece : Str) : List Str × Str :=
  let parts := splitNl (buffer ++ piece)
  (parts.dropLast, parts.getLastD [])

/-- Fold `decodeStep` over all reads, concatenating the yielded lines. -/
def decodeAll (buffer : Str) : List Str → List Str × Str
  | [] => ([], buffer)
  | p :: ps =>
    let step := decodeStep buffer p
    let rest := decodeAll step.2 ps
    (step.1 ++ rest.1, rest.2)

theorem getLastD_mem_of_ne_nil {α : Type} (l : List α) (d : α) (h : l ≠ []) :
    l.getLastD d ∈ l := by
  induction l generalizing d with
  | nil => exact absurd rfl h
  | cons a as ih =>
    rw [List.getLastD_cons]
    cases as with
    | nil => simp [List.getLastD]
    | cons b bs => exact List.mem_cons_of_mem a (ih a (by simp))

/-- A string without newlines splits into the single segment itself. -/
theorem splitNl_eq_single (s : Str) (h : '\n' ∉ s) : splitNl s = [s] := by
  induction s with
  | nil => rfl
  | cons c cs ih =>
    have hc : c ≠ '\n' := fun hcc => h (hcc ▸ List.mem_cons_self c cs)
    rw [splitNl_cons_ne c cs hc, ih (fun hin => h (List.mem_cons_of_mem c hin))]
    rfl

/-- No segment produced by `splitNl` contains a newline. -/
theorem splitNl_no_newline (s : Str) : ∀ l ∈ splitNl s, '\n' ∉ l := by
  induction s with
  | nil => simp
  | cons c cs ih =>
    by_cases hc : c = '\n'
    · subst hc
      rw [splitNl_cons_nl]
      intro l hl
      rcases List.mem_cons.mp hl with rfl | h
      · simp
      · exact ih l h
    · rw [splitNl_cons_ne c cs hc]
      intro l hl
      rcases hr : splitNl cs with _ | ⟨m, ms⟩
      · exact absurd hr (splitNl_ne_nil cs)
      rw [hr] at hl
      rcases List.mem_cons.mp hl with rfl | h
      · intro hmem
        rcases List.mem_cons.mp hmem with h1 | h2
        · exact hc h1.symm
        · exact ih m (hr ▸ List.mem_cons_self m ms) h2
      · exact ih l (hr ▸ List.mem_cons_of_mem m h)

/-- The decoder fold computes exactly the split of the concatenated input:
all complete lines of `buffer ++ join ps` are yielded, the trailing segment
is the final buffer. Requires the carry buffer to be newline-free, which the
loop maintains (the initial buffer is empty). -/
theorem decodeAll_eq (ps : List Str) (buffer : Str) (hb : '\n' ∉ buffer) :
    decodeAll buffer ps =
      ((splitNl (buffer ++ ps.flatten)).dropLast,
        (splitNl (buffer ++ ps.flatten)).getLastD []) := by
  induction ps generalizing buffer with
  | nil =>
    show ([], buffer) = _
    rw [List.flatten_nil, List.append_nil, splitNl_eq_single buffer hb]
    rfl
  | cons p ps ih =>
    have hb' : '\n' ∉ (decodeStep buffer p).2 := by
      show '\n' ∉ (splitNl (buffer ++ p)).getLastD []
      exact splitNl_no_newline (buffer ++ p) _
        (getLastD_mem_of_ne_nil _ _ (splitNl_ne_nil _))
    show ((decodeStep buffer p).1 ++ (decodeAll (decodeStep buffer p).2 ps).1,
          (decodeAll (decodeStep buffer p).2 ps).2) = _
    rw [ih _ hb']
    simp only [decodeStep, List.flatten_cons, ← List.append_assoc]
    rw [splitNl_append (buffer ++ p) ps.flatten]
    rcases hsp : splitNl (buffer ++ p) with _ | ⟨l, ls⟩
    · exact absurd hsp (splitNl_ne_nil _)
    rcases hj : splitNl ps.flatten with _ | ⟨m, ms⟩
    · exact absurd hj (splitNl_ne_nil _)
    rw [splitNl_append _ ps.flatten, hj]
    rw [splitNl_eq_single ((l :: ls).getLastD [])
      (splitNl_no_newline (buffer ++ p) _
        (hsp ▸ getLastD_mem_of_ne_nil _ [] (splitNl_ne_nil _)))]
    simp only [Prod.mk.injEq]
    constructor
    · rw [List.dropLast_append_cons]
      simp
    · rcases ms with _ | ⟨m2, ms2⟩
      · simp
      · have hsome : (m2 :: ms2).getLast?.isSome := List.getLast?_isSome.mpr (by simp)
        simp only [List.getLastD_eq_getLast?, List.getLast?_append, List.tail_cons,
          List.headD_cons, List.getLast?_cons_cons, List.getLast?_singleton,
          Option.getD_some, Option.or_of_isSome hsome]

/-- Splitting a newline-terminated frame off the front. -/
theorem splitNl_frame (f t : Str) (hf : '\n' ∉ f) :
    splitNl (f ++ '\n' :: t) = f :: splitNl t := by
  induction f with
  | nil => simp [splitNl_cons_nl]
  | cons c cs ih =>
    have hc : c ≠ '\n' := fun h => hf (h ▸ List.mem_cons_self c cs)
    have hcs : '\n' ∉ cs := fun h => hf (List.mem_cons_of_mem c h)
    rw [List.cons_append, splitNl_cons_ne c _ hc, ih hcs]
    simp

/-- The split of the concatenation of newline-terminated frames is the frame
list plus one trailing empty segment. -/
theorem splitNl_join_frames (frames : List Str) (h : ∀ f ∈ frames, '\n' ∉ f) :
    splitNl (frames.map (· ++ ['\n'])).flatten = frames ++ [[]] := by
  induction frames with
  | nil => simp
  | cons f fs ih =>
    have hf : '\n' ∉ f := h f (List.mem_cons_self f fs)
    have hfs : ∀ g ∈ fs, '\n' ∉ g := fun g hg => h g (List.mem_cons_of_mem f hg)
    simp only [List.map_cons, List.flatten_cons, List.append_assoc, List.singleton_append]
    rw [splitNl_frame f _ hf, ih hfs]
    simp

/-!
### JSON model

`JSON.parse` is modelled by an executable recursive-descent parser over the
JSON fragment used by both wire formats: strings (with the standard escapes),
integer numbers, booleans, `null`, arrays and objects. Fractional/exponent
number syntax is not modelled (no frame of either protocol carries one in the
fields this core reads).
-/

inductive JsonValue where
  | jnull
  | jbool (b : Bool)
  | jnum (n : Int)
  | jstr (s : Str)
  | jarr (elems : List JsonValue)
  | jobj (fields : List (Str × JsonValue))

/-- JSON insignificant whitespace. -/
def jsonWs (c : Char) : Bool := c = ' ' || c = '\t' || c = '\n' || c = '\r'

def skipWs (s : Str) : Str := s.dropWhile jsonWs

def escChar? (c : Char) : Option Char :=
  if c = '"' then some '"'
  else if c = '\\' then some '\\'
  else if c = '/' then some '/'
  else if c = 'n' then some '\n'
  else if c = 't' then some '\t'
  else if c = 'r' then some '\r'
  else if c = 'b' then some (Char.ofNat 8)
  else if c = 'f' then some (Char.ofNat 12)
  else none

def hexDigit? (c : Char) : Option Nat :=
  if '0' ≤ c ∧ c ≤ '9' then some (c.toNat - 48)
  else if 'a' ≤ c ∧ c ≤ 'f' then some (c.toNat - 87)
  else if 'A' ≤ c ∧ c ≤ 'F' then some (c.toNat - 55)
  else none

/-- Body of a JSON string literal, after the opening quote. -/
def parseStringBody : Str → Option (Str × Str)
  | [] => none
  | '"' :: rest => some ([], rest)
  | '\\' :: 'u' :: h1 :: h2 :: h3 :: h4 :: rest =>
    match hexDigit? h1, hexDigit? h2, hexDigit? h3, hexDigit? h4 with
    | some a, some b, some c, some d =>
      (parseStringBody rest).map
        (fun p => (Char.ofNat (((a * 16 + b) * 16 + c) * 16 + d) :: p.1, p.2))
    | _, _, _, _ => none
  | '\\' :: c :: rest =>
    match escChar? c with
    | some e => (parseStringBody rest).map (fun p => (e :: p.1, p.2))
    | none => none
  | c :: rest =>
    if c = '\\' then none
    else (parseStringBody rest).map (fun p => (c :: p.1, p.2))

def digitsToNat (ds : Str) : Nat := ds.foldl (fun a c => a * 10 + (c.toNat - 48)) 0

/-- Integer JSON number. -/
def parseNumber : Str → Option (Int × Str)
  | '-' :: rest =>
    let ds := rest.takeWhile Char.isDigit
    if ds = [] then none else some (-(digitsToNat ds : Int), rest.drop ds.length)
  | s =>
    let ds := s.takeWhile Char.isDigit
    if ds = [] then none else some ((digitsToNat ds : Int), s.drop ds.length)

/-- Comma-separated array elements after the first has begun; `pv` parses one
value (instantiated with the value parser at smaller fuel). -/
def parseElems (pv : Str → Option (JsonValue × Str)) : Nat → Str → Option (List JsonValue × Str)
  | 0, _ => none
  | fuel + 1, s =>
    match pv s with
    | none => none
    | some (v, rest) =>
      match skipWs rest with
      | ',' :: r2 => (parseElems pv fuel r2).map (fun p => (v :: p.1, p.2))
      | ']' :: r2 => some ([v], r2)
      | _ => none

/-- Comma-separated object members. -/
def parseFields (pv : Str → Option (JsonValue × Str)) :
    Nat → Str → Option (List (Str × JsonValue) × Str)
  | 0, _ => none
  | fuel + 1, s =>
    match skipWs s with
    | '"' :: rest =>
      match parseStringBody rest with
      | none => none
      | some (key, r1) =>
        match skipWs r1 with
        | ':' :: r2 =>
          match pv r2 with
          | none => none
          | some (v, r3) =>
            match skipWs r3 with
            | ',' :: r4 => (parseFields pv fuel r4).map (fun p => ((key, v) :: p.1, p.2))
            | '}' :: r4 => some ([(key, v)], r4)
            | _ => none
        | _ => none
    | _ => none

/-- One JSON value (with leading whitespace), fuel-bounded. -/
def parseJ : Nat → Str → Option (JsonValue × Str)
  | 0, _ => none
  | fuel + 1, s =>
    match skipWs s with
    | 'n' :: 'u' :: 'l' :: 'l' :: rest => some (.jnull, rest)
    | 't' :: 'r' :: 'u' :: 'e' :: rest => some (.jbool true, rest)
    | 'f' :: 'a' :: 'l' :: 's' :: 'e' :: rest => some (.jbool false, rest)
    | '"' :: rest => (parseStringBody rest).map (fun p => (.jstr p.1, p.2))
    | '[' :: rest =>
      match skipWs rest with
      | ']' :: r2 => some (.jarr [], r2)
      | _ => (parseElems (fun t => parseJ fuel t) fuel rest).map (fun p => (.jarr p.1, p.2))
    | '{' :: rest =>
      match skipWs rest with
      | '}' :: r2 => some (.jobj [], r2)
      | _ => (parseFields (fun t => parseJ fuel t) fuel rest).map (fun p => (.jobj p.1, p.2))
    | s' => (parseNumber s').map (fun p => (.jnum p.1, p.2))

/-- Fixed model of the `SyntaxError` message thrown by `JSON.parse`; the
code only logs it, so its text is never inspected. -/
def jsonErrMsg : Str := ('S' :: 'y' :: 'n' :: 't' :: 'a' :: 'x' :: []) ++ ('E' :: 'r' :: 'r' :: [])

/-- Model of `JSON.parse`: parse one value and require only trailing
whitespace after it. -/
def jsonParse (s : Str) : Except Str JsonValue :=
  match parseJ (s.length + 1) s with
  | some (v, rest) => if skipWs rest = [] then .ok v else .error jsonErrMsg
  | none => .error jsonErrMsg

/-- Property access `obj?.k`: `undefined` (= `none`) unless an object with the
key; with duplicate keys `JSON.parse` keeps the last, so lookup is from the
right. -/
def JsonValue.objGet? : JsonValue → Str → Option JsonValue
  | .jobj fs, k => ((fs.filter (fun p => p.1 == k)).getLast?).map (fun p => p.2)
  | _, _ => none

/-- Fixed model of the `TypeError` message thrown by an unguarded property
access on `null`; the code only logs it, so its text is never inspected. -/
def typeErrMsg : Str := ('T' :: 'y' :: 'p' :: 'e' :: []) ++ ('E' :: 'r' :: 'r' :: [])

/-- Unguarded JS property access `v.k`: throws a `TypeError` when `v` is
`null`; a field lookup on objects (duplicate keys: last wins, as kept by
`JSON.parse`); `undefined` (= `none`) on other non-null values (primitives
box to objects without these fields; arrays have no such named fields). -/
def jsGetProp : JsonValue → Str → Except Str (Option JsonValue)
  | .jnull, _ => .error typeErrMsg
  | .jobj fs, k => .ok (((fs.filter (fun p => p.1 == k)).getLast?).map (fun p => p.2))
  | _, _ => .ok none

/-- Optional-chained index `x?.[0]`: short-circuits to `undefined` on
`null`/`undefined`; element 0 of an array; the `"0"` property of an object;
the first character (as a one-character string) of a string; `undefined` on
other primitives. -/
def jsOptIndex0 : Option JsonValue → Option JsonValue
  | none => none
  | some .jnull => none
  | some (.jarr xs) => xs.get? 0
  | some (.jobj fs) =>
    ((fs.filter (fun p => p.1 == ('0' :: []))).getLast?).map (fun p => p.2)
  | some (.jstr s) => (s.get? 0).map (fun c => .jstr (c :: []))
  | some _ => none

/-- Optional-chained property `x?.k`: short-circuits to `undefined` on
`null`/`undefined`; a field lookup on objects; `undefined` on other
values. -/
def jsOptProp (x : Option JsonValue) (k : Str) : Option JsonValue :=
  match x with
  | none => none
  | some .jnull => none
  | some (.jobj fs) => ((fs.filter (fun p => p.1 == k)).getLast?).map (fun p => p.2)
  | some _ => none

/-- JS truthiness of a JSON value. -/
def jsTruthy : JsonValue → Bool
  | .jnull => false
  | .jbool b => b
  | .jnum n => decide (n ≠ 0)
  | .jstr s => decide (s ≠ [])
  | .jarr _ => true
  | .jobj _ => true

/-- Model of `x || ''` applied to a possibly-missing field whose wire value is
a string: the string if present, the empty string otherwise (falsy values
collapse to `''`; truthy non-string values do not occur on the wire). -/
def jsOrEmpty : Option JsonValue → Str
  | some (.jstr s) => s
  | _ => []

/-!
### Response Parser (`LLMManager.parseOllamaChunk` / `parseVLLMChunk`)
-/

/-- A decoded stream unit. Metadata fields are passed through opaquely. -/
structure StreamChunk where
  content : Str
  done : Bool
  model : Option JsonValue := none
  created_at : Option JsonValue := none
  id : Option JsonValue := none

/-- `x === null` on a possibly-`undefined` JS value (strict: `undefined`
is not `null`). -/
def isJsNull : Option JsonValue → Bool
  | some .jnull => true
  | _ => false

/-- `LLMManager.parseOllamaChunk`:

    const data = JSON.parse(line);
    return { content: data.message?.content || '', done: data.done || false,
             model: data.model, created_at: data.created_at };

A `JSON.parse` failure propagates as a thrown error (`Except.error`). -/
def parseOllamaChunk (line : Str) : Except Str StreamChunk :=
  match jsonParse line with
  | .error e => .error e
  | .ok data =>
    .ok { content := jsOrEmpty ((data.objGet? "message".data).bind
            (fun m => m.objGet? "content".data))
          done := match data.objGet? "done".data with
            | some v => jsTruthy v
            | none => false
          model := data.objGet? "model".data
          created_at := data.objGet? "created_at".data }

/-- The SSE line marker `"data: "`. -/
def sseDataMark : Str := "data: ".data

/-- `LLMManager.parseVLLMChunk`:

    if (!line.startsWith('data: ')) return null;
    const dataStr = line.slice(6);
    if (dataStr === '[DONE]') return { content: '', done: true };
    const data = JSON.parse(dataStr);
    const delta = data.choices?.[0]?.delta;
    return { content: delta?.content || '',
             done: data.choices?.[0]?.finish_reason !== null,
             model: data.model, id: data.id };

`data.choices` is an unguarded access: when the payload is the JSON literal
`null`, it throws a `TypeError` that propagates out of the function like a
`JSON.parse` failure (the caller's per-line catch then skips the line). The
later `data.model` / `data.id` accesses are only reached with `data`
non-null, so they cannot throw and are modelled by the plain object
lookup. -/
def parseVLLMChunk (line : Str) : Except Str (Option StreamChunk) :=
  if ¬ sseDataMark.isPrefixOf line then .ok none
  else
    let dataStr := line.drop 6
    if dataStr = "[DONE]".data then .ok (some { content := [], done := true })
    else
      match jsonParse dataStr with
      | .error e => .error e
      | .ok data =>
        match jsGetProp data "choices".data with
        | .error e => .error e
        | .ok choices =>
          let choice0 := jsOptIndex0 choices
          let delta := jsOptProp choice0 "delta".data
          .ok (some
            { content := jsOrEmpty (jsOptProp delta "content".data)
              done := ! isJsNull (jsOptProp choice0 "finish_reason".data)
              model := data.objGet? "model".data
              id := data.objGet? "id".data })

/-!
### Stream Reducer (`LLMManager.handleStreamResponse`, part_006)

Callback invocations are reified as an ordered list of events; the second
component of each result records whether an exception propagates out (the
function rethrows after invoking `onError`).
-/

inductive ApiType where
  | ollama
  | vllm
deriving DecidableEq

/-- Reified callback invocations, in order. -/
inductive CbEvent where
  | chunk (delta : Str)
  | complete (full : Str)
  | err (msg : Str)
deriving DecidableEq

/-- Per-variant frame parsing as used inside the read loop; `ollama` frames
never yield `null`, `vllm` frames may. -/
def parseLine : ApiType → Str → Except Str (Option StreamChunk)
  | .ollama, line => (parseOllamaChunk line).map some
  | .vllm, line => parseVLLMChunk line

/-- The inner `for (const line of lines)` loop: skip blank lines, parse each
line (a per-line parse error is logged and skipped), accumulate non-empty
content and emit an `onChunk` event for it, and `break` on a `done` chunk
(abandoning the remaining lines of this read). Returns the updated
accumulator and the events emitted. -/
def processLines (api : ApiType) : List Str → Str → Str × List CbEvent
  | [], full => (full, [])
  | line :: rest, full =>
    if trimL line = [] then processLines api rest full
    else
      match parseLine api line with
      | .error _ => processLines api rest full
      | .ok none => processLines api rest full
      | .ok (some c) =>
        let full' := if c.content ≠ [] then full ++ c.content else full
        let evs := if c.content ≠ [] then [CbEvent.chunk c.content] else []
        if c.done then (full', evs)
        else
          let r := processLines api rest full'
          (r.1, evs ++ r.2)

/-- The outer `while (true)` read loop over the successful reads: decode each
piece against the carry buffer and run the inner loop on the complete lines.
Returns the final accumulator and all emitted events. -/
def streamReadLoop (api : ApiType) : List Str → Str → Str → Str × List CbEvent
  | [], _buffer, full => (full, [])
  | p :: ps, buffer, full =>
    let step := decodeStep buffer p
    let pr := processLines api step.1 full
    let rest := streamReadLoop api ps step.2 pr.1
    (rest.1, pr.2 ++ rest.2)

/-- One streaming HTTP body: the successful reads (each the decoded text of
one delivered chunk), then either normal exhaustion (`readError = none`) or a
read that throws (`readError = some msg`). -/
structure StreamInput where
  pieces : List Str
  readError : Option Str := none

/-- `LLMManager.handleStreamResponse` (part_006): run the read loop; on normal
exhaustion invoke `onComplete(fullResponse)`; on a read error invoke
`onError(error)` and rethrow (second component `some e`). The `finally`
release of the reader has no observable callback effect. -/
def handleStreamResponse (api : ApiType) (inp : StreamInput) : List CbEvent × Option Str :=
  let r := streamReadLoop api inp.pieces [] []
  match inp.readError with
  | some e => (r.2 ++ [CbEvent.err e], some e)
  | none => (r.2 ++ [CbEvent.complete r.1], none)

/-!
### LLM Request Orchestrator (`sendOllamaMessage` / `sendVLLMMessage`, part_006)

The HTTP call itself is external: it is modelled by its outcome, either a
thrown network error or a response carrying a status and a body stream.
-/

structure HttpResponse where
  status : Nat
  body : StreamInput

/-- `response.ok`: status in the 2xx range. -/
def respOk (status : Nat) : Bool := 200 ≤ status && status ≤ 299

/-- The error thrown on a non-2xx response:
`new Error("HTTP error! status: " + status)`. -/
def httpErrMsg (status : Nat) : Str := "HTTP error! status: ".data ++ (toString status).data

/-- `LLMManager.sendOllamaMessage` (part_006), from the `fetch` onwards: a
thrown fetch error or a non-2xx status is caught by the surrounding
`try/catch`, which invokes `onError` and rethrows; otherwise the response is
handed to `handleStreamResponse`, and an error rethrown from there is caught
by the same `catch`, invoking `onError` a second time before rethrowing. -/
def sendOllamaMessage (fetchResult : Except Str HttpResponse) : List CbEvent × Option Str :=
  match fetchResult with
  | .error e => ([CbEvent.err e], some e)
  | .ok resp =>
    if ¬ respOk resp.status then
      ([CbEvent.err (httpErrMsg resp.status)], some (httpErrMsg resp.status))
    else
      match handleStreamResponse .ollama resp.body with
      | (evs, some e) => (evs ++ [CbEvent.err e], some e)
      | (evs, none) => (evs, none)

/-- `LLMManager.sendVLLMMessage` (part_006): identical control flow with the
`vllm` parser variant (the auth header does not affect callback behavior). -/
def sendVLLMMessage (fetchResult : Except Str HttpResponse) : List CbEvent × Option Str :=
  match fetchResult with
  | .error e => ([CbEvent.err e], some e)
  | .ok resp =>
    if ¬ respOk resp.status then
      ([CbEvent.err (httpErrMsg resp.status)], some (httpErrMsg resp.status))
    else
      match handleStreamResponse .vllm resp.body with
      | (evs, some e) => (evs ++ [CbEvent.err e], some e)
      | (evs, none) => (evs, none)

/-!
### Message History Validator (`LLMManager.validateMessagePattern`, part_006)
-/

inductive Role where
  | system
  | user
  | assistant
deriving DecidableEq

structure Msg where
  role : Role
  content : Str
deriving DecidableEq

/-- The blank-line separator `'\n\n'` used when merging same-role messages. -/
def nlnl : Str := '\n' :: '\n' :: []

/-- The same-role merge:

    if (validatedMessages.length > 0 &&
        validatedMessages[validatedMessages.length - 1].role === message.role) {
      validatedMessages[validatedMessages.length - 1].content += '\n\n' + message.content;
    }

(if the guard fails the message is silently dropped — the `continue` follows
either way). -/
def mergeLast (acc : List Msg) (m : Msg) : List Msg :=
  match acc.getLast? with
  | some lastM =>
    if lastM.role = m.role then
      acc.dropLast ++ [{ role := lastM.role, content := lastM.content ++ nlnl ++ m.content }]
    else acc
  | none => acc

/-- The `for (const message of messages)` loop of `validateMessagePattern`,
carrying the accumulator and the `lastRole` variable. -/
def validateGo : List Msg → Option Role → List Msg → List Msg
  | acc, _, [] => acc
  | acc, lastRole, m :: ms =>
    if trimL m.content = [] then validateGo acc lastRole ms
    else if m.role = .system then validateGo (acc ++ [m]) (some .system) ms
    else if lastRole = some m.role then validateGo (mergeLast acc m) lastRole ms
    else validateGo (acc ++ [m]) (some m.role) ms

/-- `LLMManager.validateMessagePattern` (part_006): run the loop from an empty
accumulator and `lastRole = null`, then filter out entries with
empty/whitespace-only content. -/
def validateMessagePattern (messages : List Msg) : List Msg :=
  (validateGo [] none messages).filter (fun m => ¬ trimL m.content = [])

/-!
### Conversation manager (`src/src/modules/conversation-manager.js`)

Both copies of `ConversationManager.addMessage` are identical; the
`getFormattedHistory` model below follows the second copy (the one that
merges selection context and shifts a leading non-user entry). The `id` and
`timestamp` fields of a stored message are generated opaquely and play no
role in the verified claims, so they are omitted from the record.
-/

structure StoredMsg where
  content : Str
  isUser : Bool
  selection : Str := []
deriving DecidableEq

/-- `APP_CONSTANTS.MAX_HISTORY_TURNS` (src/src/constants/app-constants.js). -/
def MAX_HISTORY_TURNS : Nat := 5

/-- `ConversationManager.addMessage`: returns the new in-memory history and
whether a save to storage was triggered.

    if (!message.trim()) return;
    ... this.conversationHistory.push(messageObj);
    if (this.conversationHistory.length > APP_CONSTANTS.MAX_HISTORY_TURNS * 2) {
      this.conversationHistory =
        this.conversationHistory.slice(-APP_CONSTANTS.MAX_HISTORY_TURNS * 2);
    }
    this.saveConversationHistory();
-/
def addMessage (history : List StoredMsg) (message : Str) (isUser : Bool)
    (selection : Str) : List StoredMsg × Bool :=
  if trimL message = [] then (history, false)
  else
    let h := history ++ [{ content := message, isUser := isUser, selection := selection }]
    let h2 := if h.length > MAX_HISTORY_TURNS * 2
      then h.drop (h.length - MAX_HISTORY_TURNS * 2) else h
    (h2, true)

/-- Content formatting of `getFormattedHistory` (second copy): merge a
non-blank selection into the content. -/
def formatStored (m : StoredMsg) : Msg :=
  { role := if m.isUser then .user else .assistant
    content :=
      if trimL m.selection = [] then m.content
      else trimL (m.content ++ nlnl ++ "[Selected text context]:".data ++ '\n' :: trimL m.selection) }

/-- The alternation loop of `getFormattedHistory` (second copy): note that,
unlike `validateMessagePattern`, the merge guard checks only that the
accumulator is non-empty, not the role of its last entry. -/
def formattedGo : List Msg → Option Role → List Msg → List Msg
  | acc, _, [] => acc
  | acc, lastRole, m :: ms =>
    if trimL m.content = [] then formattedGo acc lastRole ms
    else if lastRole = some m.role then
      formattedGo
        (match acc.getLast? with
         | some lastM =>
           acc.dropLast ++ [{ role := lastM.role, content := lastM.content ++ nlnl ++ m.content }]
         | none => acc)
        lastRole ms
    else formattedGo (acc ++ [m]) (some m.role) ms

/-- `ConversationManager.getFormattedHistory` (second copy): format each
stored message, repair alternation, then drop a leading non-user entry:

    if (validatedMessages.length > 0 && validatedMessages[0].role !== 'user') {
      validatedMessages.shift();
    }
-/
def getFormattedHistory (history : List StoredMsg) : List Msg :=
  let validated := formattedGo [] none (history.map formatStored)
  match validated with
  | m :: rest => if m.role ≠ .user then rest else m :: rest
  | [] => []

/-!
### Reducer invariants
-/

/-- The inner loop only emits `onChunk` events, one per accumulated non-empty
delta, and the accumulator grows by exactly the concatenation of those
deltas. -/
theorem processLines_events (api : ApiType) (lines : List Str) (full : Str) :
    ∃ ds : List Str, (∀ d ∈ ds, d ≠ []) ∧
      processLines api lines full = (full ++ ds.flatten, ds.map CbEvent.chunk) := by
  induction lines generalizing full with
  | nil => exact ⟨[], by simp, by simp [processLines]⟩
  | cons line rest ih =>
    by_cases h1 : trimL line = []
    · rcases ih full with ⟨ds, hne, heq⟩
      exact ⟨ds, hne, by simp [processLines, h1, heq]⟩
    · cases hp : parseLine api line with
      | error e =>
        rcases ih full with ⟨ds, hne, heq⟩
        exact ⟨ds, hne, by simp [processLines, h1, hp, heq]⟩
      | ok oc =>
        cases oc with
        | none =>
          rcases ih full with ⟨ds, hne, heq⟩
          exact ⟨ds, hne, by simp [processLines, h1, hp, heq]⟩
        | some c =>
          by_cases hc : c.content = []
          · by_cases hd : c.done
            · exact ⟨[], by simp, by simp [processLines, h1, hp, hc, hd]⟩
            · rcases ih full with ⟨ds, hne, heq⟩
              exact ⟨ds, hne, by simp [processLines, h1, hp, hc, hd, heq]⟩
          · by_cases hd : c.done
            · refine ⟨[c.content], by simpa using hc, ?_⟩
              simp [processLines, h1, hp, hc, hd]
            · rcases ih (full ++ c.content) with ⟨ds, hne, heq⟩
              refine ⟨c.content :: ds, ?_, ?_⟩
              · intro d hd'
                rcases List.mem_cons.mp hd' with rfl | hmem
                · exact hc
                · exact hne d hmem
              · simp [processLines, h1, hp, hc, hd, heq, List.append_assoc]

/-- The read loop only emits `onChunk` events and accumulates their deltas. -/
theorem streamReadLoop_events (api : ApiType) (ps : List Str) (buffer full : Str) :
    ∃ ds : List Str, (∀ d ∈ ds, d ≠ []) ∧
      streamReadLoop api ps buffer full = (full ++ ds.flatten, ds.map CbEvent.chunk) := by
  induction ps generalizing buffer full with
  | nil => exact ⟨[], by simp, by simp [streamReadLoop]⟩
  | cons p ps ih =>
    rcases processLines_events api (decodeStep buffer p).1 full with ⟨ds1, hne1, heq1⟩
    rcases ih (decodeStep buffer p).2 (full ++ ds1.flatten) with ⟨ds2, hne2, heq2⟩
    refine ⟨ds1 ++ ds2, ?_, ?_⟩
    · intro d hd
      rcases List.mem_append.mp hd with h | h
      · exact hne1 d h
      · exact hne2 d h
    · simp [streamReadLoop, heq1, heq2, List.append_assoc]

/-- A stream that exhausts normally produces all its `onChunk` events followed
by exactly one `onComplete` carrying the concatenation of the deltas. -/
theorem handleStream_success (api : ApiType) (pieces : List Str) :
    ∃ ds : List Str, (∀ d ∈ ds, d ≠ []) ∧
      handleStreamResponse api { pieces := pieces, readError := none } =
        (ds.map CbEvent.chunk ++ [CbEvent.complete ds.flatten], none) := by
  rcases streamReadLoop_events api pieces [] [] with ⟨ds, hne, heq⟩
  exact ⟨ds, hne, by simp [handleStreamResponse, heq]⟩

/-- A stream whose read throws produces its `onChunk` events followed by one
`onError`, no `onComplete`, and rethrows. -/
theorem handleStream_failure (api : ApiType) (pieces : List Str) (e : Str) :
    ∃ ds : List Str, (∀ d ∈ ds, d ≠ []) ∧
      handleStreamResponse api { pieces := pieces, readError := some e } =
        (ds.map CbEvent.chunk ++ [CbEvent.err e], some e) := by
  rcases streamReadLoop_events api pieces [] [] with ⟨ds, hne, heq⟩
  exact ⟨ds, hne, by simp [handleStreamResponse, heq]⟩

/-- The delta a single frame contributes when it is not cut off by an earlier
`done` chunk of the same read batch: `none` for blank lines, unparseable
lines, `null` chunks and empty-content chunks, otherwise the chunk's
content. -/
def frameDelta? (api : ApiType) (line : Str) : Option Str :=
  if trimL line = [] then none
  else
    match parseLine api line with
    | .ok (some c) => if c.content ≠ [] then some c.content else none
    | _ => none

theorem processLines_single (api : ApiType) (f : Str) (full : Str) :
    processLines api [f] full =
      (full ++ ((frameDelta? api f).elim [] id),
        ((frameDelta? api f).elim [] (fun d => [CbEvent.chunk d]))) := by
  by_cases h1 : trimL f = []
  · simp [processLines, frameDelta?, h1]
  · cases hp : parseLine api f with
    | error e => simp [processLines, frameDelta?, h1, hp]
    | ok oc =>
      cases oc with
      | none => simp [processLines, frameDelta?, h1, hp]
      | some c =>
        by_cases hc : c.content = []
        · by_cases hd : c.done <;> simp [processLines, frameDelta?, h1, hp, hc, hd]
        · by_cases hd : c.done <;> simp [processLines, frameDelta?, h1, hp, hc, hd]

/-- When every frame arrives in its own read (newline-terminated), the loop
delivers exactly one `onChunk` per frame with a non-empty parsed delta, in
arrival order, and nothing is lost to the early `break`. -/
theorem streamReadLoop_frames (api : ApiType) (frames : List Str)
    (h : ∀ f ∈ frames, '\n' ∉ f) (full : Str) :
    streamReadLoop api (frames.map (· ++ ['\n'])) [] full =
      (full ++ (frames.filterMap (frameDelta? api)).flatten,
        (frames.filterMap (frameDelta? api)).map CbEvent.chunk) := by
  induction frames generalizing full with
  | nil => simp [streamReadLoop]
  | cons f fs ih =>
    have hf : '\n' ∉ f := h f (List.mem_cons_self f fs)
    have hfs : ∀ g ∈ fs, '\n' ∉ g := fun g hg => h g (List.mem_cons_of_mem f hg)
    have hsp : splitNl (f ++ ['\n']) = [f, []] := by
      simpa using splitNl_frame f [] hf
    have hstep : decodeStep [] (f ++ ['\n']) = ([f], []) := by
      simp [decodeStep, hsp]
    rw [List.map_cons]
    show (let step := decodeStep [] (f ++ ['\n'])
          let pr := processLines api step.1 full
          let rest := streamReadLoop api (fs.map (· ++ ['\n'])) step.2 pr.1
          (rest.1, pr.2 ++ rest.2)) = _
    rw [hstep]
    simp only
    rw [processLines_single api f full]
    cases hfd : frameDelta? api f with
    | none => simp [List.filterMap_cons, hfd, ih hfs full]
    | some d => simp [List.filterMap_cons, hfd, ih hfs (full ++ d), List.append_assoc]

/-!
### Validator invariants
-/

/-- Same-role merge step of the validator, characterized: a non-blank,
non-system message whose role matches both the tracked `lastRole` and the
role of the last retained entry is folded into that entry with a blank-line
separator, and no new entry is created. -/
theorem validateGo_merge (acc : List Msg) (lr : Option Role) (m : Msg) (ms : List Msg)
    (lm : Msg) (hcont : ¬ trimL m.content = []) (hsys : m.role ≠ .system)
    (hlr : lr = some m.role) (hlast : acc.getLast? = some lm) (hrole : lm.role = m.role) :
    validateGo acc lr (m :: ms) =
      validateGo
        (acc.dropLast ++ [({ role := lm.role, content := lm.content ++ nlnl ++ m.content } : Msg)])
        lr ms ∧
    (acc.dropLast ++
      [({ role := lm.role, content := lm.content ++ nlnl ++ m.content } : Msg)]).length =
        acc.length := by
  have haccne : acc ≠ [] := by
    intro h
    rw [h] at hlast
    simp at hlast
  constructor
  · rw [validateGo, if_neg hcont, if_neg hsys, if_pos hlr]
    congr 1
    unfold mergeLast
    rw [hlast]
    simp only
    rw [if_pos hrole]
  · rw [List.length_append, List.length_dropLast, List.length_singleton]
    have := List.length_pos.mpr haccne
    omega

/-- Processing a prefix of system messages: each non-blank one is appended
and flips `lastRole` to `system`; blank ones are dropped. -/
theorem validateGo_sys (sys : List Msg) (rest : List Msg) (acc : List Msg) (lr : Option Role)
    (h : ∀ m ∈ sys, m.role = .system) :
    validateGo acc lr (sys ++ rest) =
      validateGo (acc ++ sys.filter (fun m => ¬ trimL m.content = []))
        (if sys.filter (fun m => ¬ trimL m.content = []) = [] then lr else some .system)
        rest := by
  induction sys generalizing acc lr with
  | nil => simp
  | cons s ss ih =>
    have hs : s.role = .system := h s (List.mem_cons_self s ss)
    have hss : ∀ m ∈ ss, m.role = .system := fun m hm => h m (List.mem_cons_of_mem s hm)
    by_cases hb : trimL s.content = []
    · rw [List.cons_append, validateGo, if_pos hb, ih acc lr hss]
      simp [List.filter_cons, hb]
    · rw [List.cons_append, validateGo, if_neg hb, if_pos hs, ih (acc ++ [s]) (some .system) hss]
      simp only [List.filter_cons, hb]
      simp [List.append_assoc]

/-- Processing a run of non-system messages preserves: the system prefix of
the accumulator, non-emptiness of every retained content, and strict role
alternation of the non-system part. -/
theorem validateGo_ns (rest : List Msg) :
    ∀ (sp np : List Msg) (lr : Option Role),
    (∀ m ∈ rest, m.role ≠ .system) →
    (∀ m ∈ sp, m.role = .system) →
    (∀ m ∈ np, m.role ≠ .system) →
    (∀ m ∈ sp ++ np, ¬ trimL m.content = []) →
    List.Chain' (fun a b => a.role ≠ b.role) np →
    ((np = [] ∧ (lr = none ∨ lr = some .system)) ∨
      (∃ lastNs, np.getLast? = some lastNs ∧ lr = some lastNs.role)) →
    ∃ np' : List Msg,
      validateGo (sp ++ np) lr rest = sp ++ np' ∧
      (∀ m ∈ np', m.role ≠ .system) ∧
      (∀ m ∈ sp ++ np', ¬ trimL m.content = []) ∧
      List.Chain' (fun a b => a.role ≠ b.role) np' := by
  induction rest with
  | nil =>
    intro sp np lr _ _ hnp hcont hchain _
    exact ⟨np, rfl, hnp, hcont, hchain⟩
  | cons m ms ih =>
    intro sp np lr hrest hsp hnp hcont hchain hlr
    have hm : m.role ≠ .system := hrest m (List.mem_cons_self m ms)
    have hms : ∀ x ∈ ms, x.role ≠ .system := fun x hx => hrest x (List.mem_cons_of_mem m hx)
    by_cases hb : trimL m.content = []
    · rw [validateGo, if_pos hb]
      exact ih sp np lr hms hsp hnp hcont hchain hlr
    · rw [validateGo, if_neg hb, if_neg hm]
      by_cases heq : lr = some m.role
      · -- merge branch
        rw [if_pos heq]
        rcases hlr with ⟨hnpnil, h1 | h1⟩ | ⟨lastNs, hnpl, hlr2⟩
        · rw [h1] at heq; exact absurd heq (by simp)
        · rw [h1] at heq
          exact absurd (Option.some.inj heq).symm hm
        · have hnpne : np ≠ [] := by
            intro h
            rw [h] at hnpl
            simp at hnpl
          have hrole : lastNs.role = m.role := Option.some.inj (hlr2.symm.trans heq)
          have hform : np = np.dropLast ++ [lastNs] := by
            have h1 : np.getLast hnpne = lastNs := by
              have h2 := List.getLast?_eq_getLast np hnpne
              rw [hnpl] at h2
              exact (Option.some.inj h2).symm
            rw [← h1]
            exact (List.dropLast_append_getLast hnpne).symm
          have hlastmem : lastNs ∈ np := by
            rw [hform]
            exact List.mem_append_right _ (List.mem_singleton_self lastNs)
          have hacc_last : (sp ++ np).getLast? = some lastNs := by
            rw [List.getLast?_append, hnpl]
            rfl
          have hmerge : mergeLast (sp ++ np) m =
              sp ++ (np.dropLast ++
                [({ role := lastNs.role,
                    content := lastNs.content ++ nlnl ++ m.content } : Msg)]) := by
            unfold mergeLast
            rw [hacc_last]
            simp only
            rw [if_pos hrole, List.dropLast_append_of_ne_nil _ hnpne, List.append_assoc]
          rw [hmerge]
          have hnp' : ∀ x ∈ np.dropLast ++
              [({ role := lastNs.role, content := lastNs.content ++ nlnl ++ m.content } : Msg)],
              x.role ≠ .system := by
            intro x hx
            rcases List.mem_append.mp hx with h1 | h1
            · exact hnp x ((List.dropLast_sublist np).subset h1)
            · rcases List.mem_singleton.mp h1 with rfl
              exact hnp lastNs hlastmem
          have hcont' : ∀ x ∈ sp ++ (np.dropLast ++
              [({ role := lastNs.role, content := lastNs.content ++ nlnl ++ m.content } : Msg)]),
              ¬ trimL x.content = [] := by
            intro x hx
            rcases List.mem_append.mp hx with h1 | h1
            · exact hcont x (List.mem_append_left _ h1)
            · rcases List.mem_append.mp h1 with h2 | h2
              · exact hcont x (List.mem_append_right _ ((List.dropLast_sublist np).subset h2))
              · rcases List.mem_singleton.mp h2 with rfl
                exact trimL_append_ne_nil _ _
                  (trimL_append_ne_nil _ _
                    (hcont lastNs (List.mem_append_right _ hlastmem)))
          have hchain' : List.Chain' (fun a b => a.role ≠ b.role)
              (np.dropLast ++
                [({ role := lastNs.role, content := lastNs.content ++ nlnl ++ m.content } : Msg)]) := by
            have hc := hchain
            rw [hform, List.chain'_append] at hc
            obtain ⟨h1, _, h3⟩ := hc
            rw [List.chain'_append]
            refine ⟨h1, List.chain'_singleton _, ?_⟩
            intro x hx y hy
            rcases Option.mem_some_iff.mp hy with rfl
            exact h3 x hx lastNs (Option.mem_some_iff.mpr rfl)
          have hlr' : ((np.dropLast ++
                [({ role := lastNs.role,
                    content := lastNs.content ++ nlnl ++ m.content } : Msg)]) = [] ∧
                (lr = none ∨ lr = some .system)) ∨
              (∃ l2, (np.dropLast ++
                [({ role := lastNs.role,
                    content := lastNs.content ++ nlnl ++ m.content } : Msg)]).getLast? = some l2 ∧
                lr = some l2.role) := by
            right
            exact ⟨({ role := lastNs.role, content := lastNs.content ++ nlnl ++ m.content } : Msg), by rw [List.getLast?_append]; rfl, hlr2⟩
          exact ih sp _ lr hms hsp hnp' hcont' hchain' hlr'
      · -- push branch
        rw [if_neg heq, List.append_assoc]
        have hnp' : ∀ x ∈ np ++ [m], x.role ≠ .system := by
          intro x hx
          rcases List.mem_append.mp hx with h1 | h1
          · exact hnp x h1
          · rcases List.mem_singleton.mp h1 with rfl
            exact hm
        have hcont' : ∀ x ∈ sp ++ (np ++ [m]), ¬ trimL x.content = [] := by
          intro x hx
          rcases List.mem_append.mp hx with h1 | h1
          · exact hcont x (List.mem_append_left _ h1)
          · rcases List.mem_append.mp h1 with h2 | h2
            · exact hcont x (List.mem_append_right _ h2)
            · rcases List.mem_singleton.mp h2 with rfl
              exact hb
        have hchain' : List.Chain' (fun a b => a.role ≠ b.role) (np ++ [m]) := by
          rw [List.chain'_append]
          refine ⟨hchain, List.chain'_singleton _, ?_⟩
          intro x hx y hy
          rcases Option.mem_some_iff.mp hy with rfl
          rcases hlr with ⟨hnpnil, _⟩ | ⟨lastNs, hnpl, hlr2⟩
          · rw [hnpnil] at hx
            simp at hx
          · rw [hnpl] at hx
            rcases Option.mem_some_iff.mp hx with rfl
            intro hcontra
            exact heq (hlr2.trans (by rw [hcontra]))
        have hlr' : ((np ++ [m]) = [] ∧
              (some m.role = none ∨ some m.role = some Role.system)) ∨
            (∃ l2, (np ++ [m]).getLast? = some l2 ∧ some m.role = some l2.role) := by
          right
          refine ⟨m, ?_, rfl⟩
          rw [List.getLast?_append]
          rfl
        exact ih sp (np ++ [m]) (some m.role) hms hsp hnp' hcont' hchain' hlr'


/-!
### Concrete wire frames and messages used in examples and witnesses
-/

/-- Ollama frame `{"message":{"content":"Hel"},"done":false}`. -/
def frameHel : Str := "\x7b\"message\":\x7b\"content\":\"Hel\"\x7d,\"done\":false\x7d".data

/-- Ollama frame `{"message":{"content":"lo"},"done":false}`. -/
def frameLo : Str := "\x7b\"message\":\x7b\"content\":\"lo\"\x7d,\"done\":false\x7d".data

/-- Ollama frame `{"message":{"content":"!"},"done":true}`. -/
def frameBang : Str := "\x7b\"message\":\x7b\"content\":\"!\"\x7d,\"done\":true\x7d".data

/-- Ollama frame `{"message":{"content":""},"done":true}`: completion without
content. -/
def frameDoneEmpty : Str := "\x7b\"message\":\x7b\"content\":\"\"\x7d,\"done\":true\x7d".data

/-- Ollama frame `{"message":{"content":"x"},"done":false}`. -/
def frameX : Str := "\x7b\"message\":\x7b\"content\":\"x\"\x7d,\"done\":false\x7d".data

/-- Ollama frame `{"message":{"content":"a"},"done":false}`. -/
def frameA : Str := "\x7b\"message\":\x7b\"content\":\"a\"\x7d,\"done\":false\x7d".data

/-- Ollama frame `{"message":{"content":"b"},"done":false}`. -/
def frameB : Str := "\x7b\"message\":\x7b\"content\":\"b\"\x7d,\"done\":false\x7d".data

/-- A malformed frame: not JSON. -/
def frameBad : Str := "not json".data

/-- vLLM SSE frame
`data: {"choices":[{"delta":{"content":"hi"},"finish_reason":null}]}`. -/
def vllmFrameHi : Str :=
  "data: \x7b\"choices\":[\x7b\"delta\":\x7b\"content\":\"hi\"\x7d,\"finish_reason\":null\x7d]\x7d".data

/-- The parsed JSON of the payload of `vllmFrameHi`. -/
def vllmFrameHiJson : JsonValue :=
  .jobj [("choices".data,
    .jarr [.jobj [("delta".data, .jobj [("content".data, .jstr "hi".data)]),
                  ("finish_reason".data, .jnull)]])]

/-- The value of the `choices` access on `vllmFrameHiJson`. -/
def vllmFrameHiChoices : Option JsonValue :=
  some (.jarr [.jobj [("delta".data, .jobj [("content".data, .jstr "hi".data)]),
               ("finish_reason".data, .jnull)]])

def msgAssistX : Msg := { role := .assistant, content := "x".data }

def msgUserY : Msg := { role := .user, content := "y".data }

def msgSysS : Msg := { role := .system, content := "s".data }

def msgUserA : Msg := { role := .user, content := "a".data }

def msgUserB : Msg := { role := .user, content := "b".data }

def msgAssistC : Msg := { role := .assistant, content := "c".data }

def storedM : StoredMsg := { content := "m".data, isUser := true }


/-- `x !== null` is false exactly on the JSON literal `null` (absent, i.e.
`undefined`, counts as non-null under strict inequality). -/
theorem isJsNull_false_iff (o : Option JsonValue) :
    isJsNull o = false ↔ o ≠ some .jnull := by
  cases o with
  | none => simp [isJsNull]
  | some v => cases v <;> simp [isJsNull]

/-- Shape of `parseVLLMChunk` on a `data: ` line whose payload parses and
whose `data.choices` access does not throw. -/
theorem parseVLLMChunk_eq_of_parse (line : Str) (data : JsonValue)
    (choices : Option JsonValue)
    (h1 : sseDataMark.isPrefixOf line) (h2 : line.drop 6 ≠ "[DONE]".data)
    (hp : jsonParse (line.drop 6) = .ok data)
    (hc : jsGetProp data "choices".data = .ok choices) :
    parseVLLMChunk line =
      .ok (some
        { content := jsOrEmpty (jsOptProp (jsOptProp (jsOptIndex0 choices) "delta".data)
            "content".data)
          done := ! isJsNull (jsOptProp (jsOptIndex0 choices) "finish_reason".data)
          model := data.objGet? "model".data
          created_at := none
          id := data.objGet? "id".data }) := by
  unfold parseVLLMChunk
  rw [if_neg (by simp [h1]), if_neg h2, hp]
  simp only [hc]

/-- Shape of `parseVLLMChunk` on a `data: ` line whose payload is the JSON
literal `null`: the unguarded `data.choices` access throws. -/
theorem parseVLLMChunk_null_throws (line : Str)
    (h1 : sseDataMark.isPrefixOf line) (h2 : line.drop 6 ≠ "[DONE]".data)
    (hp : jsonParse (line.drop 6) = .ok .jnull) :
    parseVLLMChunk line = .error typeErrMsg := by
  unfold parseVLLMChunk
  rw [if_neg (by simp [h1]), if_neg h2, hp]
  rfl

/-!
### Claims
-/

/-- C1, counterexample: when the stream read fails, `onError` is invoked
twice for the single request — once by `handleStreamResponse`'s catch and
once more by `sendOllamaMessage`'s catch after the rethrow — so "never
twice" fails. -/
theorem claim1_counterexample :
    sendOllamaMessage (Except.ok
      { status := 200, body := { pieces := [], readError := some "boom".data } }) =
      ([CbEvent.err "boom".data, CbEvent.err "boom".data], some "boom".data) := by
  rfl

/-- C1, amended: the terminal callback kinds are exclusive and come after all
`onChunk` events — a fetch error or non-2xx status yields exactly one
`onError` and nothing else; a successful stream yields exactly one
`onComplete` after its chunks and no `onError`; but a stream-read failure
yields exactly two `onError` invocations (handleStreamResponse's catch and
the sender's catch) after the chunks and no `onComplete`. -/
theorem claim1_amended :
    (∀ e : Str, sendOllamaMessage (Except.error e) = ([CbEvent.err e], some e)) ∧
    (∀ (status : Nat) (body : StreamInput), respOk status = false →
      sendOllamaMessage (Except.ok { status := status, body := body }) =
        ([CbEvent.err (httpErrMsg status)], some (httpErrMsg status))) ∧
    (∀ (status : Nat) (pieces : List Str), respOk status = true →
      ∃ ds : List Str,
        sendOllamaMessage (Except.ok
          { status := status, body := { pieces := pieces, readError := none } }) =
          (ds.map CbEvent.chunk ++ [CbEvent.complete ds.flatten], none)) ∧
    (∀ (status : Nat) (pieces : List Str) (e : Str), respOk status = true →
      ∃ ds : List Str,
        sendOllamaMessage (Except.ok
          { status := status, body := { pieces := pieces, readError := some e } }) =
          (ds.map CbEvent.chunk ++ [CbEvent.err e, CbEvent.err e], some e)) := by
  refine ⟨fun e => rfl, ?_, ?_, ?_⟩
  · intro status body h
    simp [sendOllamaMessage, h]
  · intro status pieces h
    rcases handleStream_success .ollama pieces with ⟨ds, _, heq⟩
    exact ⟨ds, by simp [sendOllamaMessage, h, heq]⟩
  · intro status pieces e h
    rcases handleStream_failure .ollama pieces e with ⟨ds, _, heq⟩
    exact ⟨ds, by simp [sendOllamaMessage, h, heq]⟩

/-- C1, witness: the amended theorem at concrete inputs — a network error, a
500 status, a one-frame success, and a read failure. -/
theorem claim1_witness :
    sendOllamaMessage (Except.error "net down".data) =
      ([CbEvent.err "net down".data], some "net down".data) ∧
    sendOllamaMessage (Except.ok { status := 500, body := { pieces := [], readError := none } }) =
      ([CbEvent.err (httpErrMsg 500)], some (httpErrMsg 500)) ∧
    (∃ ds : List Str,
      sendOllamaMessage (Except.ok
        { status := 200, body := { pieces := [frameHel ++ ['\n']], readError := none } }) =
        (ds.map CbEvent.chunk ++ [CbEvent.complete ds.flatten], none)) ∧
    (∃ ds : List Str,
      sendOllamaMessage (Except.ok
        { status := 200, body := { pieces := [], readError := some "gone".data } }) =
        (ds.map CbEvent.chunk ++ [CbEvent.err "gone".data, CbEvent.err "gone".data],
          some "gone".data)) := by
  exact ⟨claim1_amended.1 _, claim1_amended.2.1 500 _ (by decide),
    claim1_amended.2.2.1 200 _ (by decide), claim1_amended.2.2.2 200 _ _ (by decide)⟩

/-- C2: (1) for any partition of a byte sequence forming N newline-terminated
frames, the decoder yields exactly those N frames (no frame split, no byte
dropped, empty final buffer); (2) blank lines are skipped before the parser
is consulted. -/
theorem claim2_frame_integrity :
    (∀ (frames ps : List Str), (∀ f ∈ frames, '\n' ∉ f) →
      ps.flatten = (frames.map (· ++ ['\n'])).flatten →
      (decodeAll [] ps).1 = frames ∧ (decodeAll [] ps).2 = []) ∧
    (∀ (api : ApiType) (line : Str) (rest : List Str) (full : Str), trimL line = [] →
      processLines api (line :: rest) full = processLines api rest full) := by
  constructor
  · intro frames ps hnf hjoin
    rw [decodeAll_eq ps [] (by simp), List.nil_append, hjoin, splitNl_join_frames frames hnf]
    constructor
    · exact List.dropLast_concat
    · rw [List.getLastD_eq_getLast?, List.getLast?_append]
      rfl
  · intro api line rest full h
    simp [processLines, h]

/-- C2, witness: the frames `"ab"`, `"c"` delivered one byte at a time are
decoded to exactly those frames, and a whitespace-only line is skipped. -/
theorem claim2_witness :
    ((decodeAll [] ["a".data, "b".data, "\n".data, "c".data, "\n".data]).1 =
      ["ab".data, "c".data] ∧
     (decodeAll [] ["a".data, "b".data, "\n".data, "c".data, "\n".data]).2 = []) ∧
    processLines .ollama (" ".data :: [frameHel]) [] = processLines .ollama [frameHel] [] := by
  exact ⟨claim2_frame_integrity.1 ["ab".data, "c".data] _ (by decide) (by decide),
    claim2_frame_integrity.2 .ollama " ".data [frameHel] [] (by decide)⟩

/-- C3, counterexample: a successfully consumed stream whose single read
carries a `done` frame followed by a frame that parses to the non-empty
delta `"x"` produces no `onChunk` at all (the `break` abandons the rest of
the batch), refuting "onChunk is invoked once per parsed chunk with
non-empty content". -/
theorem claim3_counterexample :
    handleStreamResponse .ollama
      { pieces := [frameDoneEmpty ++ '\n' :: (frameX ++ ['\n'])], readError := none } =
      ([CbEvent.complete []], none) ∧
    parseOllamaChunk frameX =
      .ok { content := "x".data, done := false, model := none, created_at := none, id := none } := by
  exact ⟨rfl, rfl⟩

/-- C3, amended: (1) every successfully consumed stream emits its `onChunk`
events (all with non-empty deltas) in order followed by exactly one
`onComplete` carrying their concatenation; (2) when no frame shares a read
batch with an earlier `done` frame — e.g. each frame in its own read —
`onChunk` fires once per parsed chunk with non-empty content, with exactly
that delta; (3) the `"Hel"`/`"lo"`/`"!"` example delivers three deltas and
`onComplete("Hello!")`. -/
theorem claim3_amended :
    (∀ (api : ApiType) (pieces : List Str), ∃ ds : List Str, (∀ d ∈ ds, d ≠ []) ∧
      handleStreamResponse api { pieces := pieces, readError := none } =
        (ds.map CbEvent.chunk ++ [CbEvent.complete ds.flatten], none)) ∧
    (∀ (api : ApiType) (frames : List Str), (∀ f ∈ frames, '\n' ∉ f) →
      handleStreamResponse api { pieces := frames.map (· ++ ['\n']), readError := none } =
        ((frames.filterMap (frameDelta? api)).map CbEvent.chunk ++
          [CbEvent.complete (frames.filterMap (frameDelta? api)).flatten], none)) ∧
    handleStreamResponse .ollama
      { pieces := [frameHel ++ '\n' :: (frameLo ++ '\n' :: (frameBang ++ ['\n']))],
        readError := none } =
      ([CbEvent.chunk "Hel".data, CbEvent.chunk "lo".data, CbEvent.chunk "!".data,
        CbEvent.complete "Hello!".data], none) := by
  refine ⟨handleStream_success, ?_, by rfl⟩
  intro api frames h
  simp [handleStreamResponse, streamReadLoop_frames api frames h []]

/-- C3, witness: the amended theorem at concrete inputs. -/
theorem claim3_witness :
    (∃ ds : List Str, (∀ d ∈ ds, d ≠ []) ∧
      handleStreamResponse .ollama { pieces := ["garbage".data], readError := none } =
        (ds.map CbEvent.chunk ++ [CbEvent.complete ds.flatten], none)) ∧
    handleStreamResponse .vllm
      { pieces := ["data: [DONE]".data].map (· ++ ['\n']), readError := none } =
      ((["data: [DONE]".data].filterMap (frameDelta? .vllm)).map CbEvent.chunk ++
        [CbEvent.complete (["data: [DONE]".data].filterMap (frameDelta? .vllm)).flatten],
        none) := by
  exact ⟨claim3_amended.1 .ollama _, claim3_amended.2.1 .vllm _ (by decide)⟩

/-- C4: a frame whose JSON fails to parse is skipped and processing continues
with the next frame; concretely, good/bad/good frames yield exactly the two
successful deltas and one `onComplete`. -/
theorem claim4_parse_error_skipped :
    (∀ (api : ApiType) (line : Str) (rest : List Str) (full : Str) (e : Str),
      parseLine api line = .error e →
      processLines api (line :: rest) full = processLines api rest full) ∧
    handleStreamResponse .ollama
      { pieces := [frameA ++ '\n' :: (frameBad ++ '\n' :: (frameB ++ ['\n']))],
        readError := none } =
      ([CbEvent.chunk "a".data, CbEvent.chunk "b".data, CbEvent.complete "ab".data], none) := by
  constructor
  · intro api line rest full e hp
    by_cases h : trimL line = []
    · simp [processLines, h]
    · simp [processLines, h, hp]
  · rfl

/-- C4, witness: the skip equation at the concrete malformed frame. -/
theorem claim4_witness :
    processLines .ollama (frameBad :: [frameA]) [] = processLines .ollama [frameA] [] :=
  claim4_parse_error_skipped.1 .ollama frameBad [frameA] [] jsonErrMsg rfl

/-- C5, counterexample: `validateMessagePattern` keeps a stray leading
assistant entry — `[assistant:"x", user:"y"]` validates to itself, so the
first retained non-system entry is the assistant, not `user:"y"`. -/
theorem claim5_counterexample :
    validateMessagePattern [msgAssistX, msgUserY] = [msgAssistX, msgUserY] ∧
    (validateMessagePattern [msgAssistX, msgUserY]).head? = some msgAssistX ∧
    msgAssistX.role = .assistant := by
  exact ⟨rfl, rfl, rfl⟩

/-- C5, amended: when system entries form a (possibly empty) leading prefix
of the input, the validated output is that system prefix followed by
strictly alternating user/assistant entries — but a stray leading assistant
is retained by `validateMessagePattern`; the `getFormattedHistory` variant
of the conversation manager is the one that removes it, so there
`[assistant:"x", user:"y"]` yields `[user:"y"]`. -/
theorem claim5_amended :
    (∀ sys rest : List Msg, (∀ m ∈ sys, m.role = .system) →
      (∀ m ∈ rest, m.role ≠ .system) →
      ∃ sysOut nsOut : List Msg,
        validateMessagePattern (sys ++ rest) = sysOut ++ nsOut ∧
        (∀ m ∈ sysOut, m.role = .system) ∧
        (∀ m ∈ nsOut, m.role ≠ .system) ∧
        List.Chain' (fun a b => a.role ≠ b.role) nsOut) ∧
    getFormattedHistory [{ content := "x".data, isUser := false },
        { content := "y".data, isUser := true }] =
      [{ role := .user, content := "y".data }] := by
  constructor
  · intro sys rest hsys hrest
    unfold validateMessagePattern
    rw [validateGo_sys sys rest [] none hsys]
    have hsp : ∀ m ∈ sys.filter (fun m => ¬ trimL m.content = []), m.role = .system :=
      fun m hm => hsys m (List.mem_of_mem_filter hm)
    rw [List.nil_append]
    have hcont : ∀ m ∈ sys.filter (fun m => ¬ trimL m.content = []) ++ ([] : List Msg),
        ¬ trimL m.content = [] := by
      intro m hm
      rw [List.append_nil] at hm
      exact of_decide_eq_true (List.mem_filter.mp hm).2
    have hlr : ((([] : List Msg) = [] ∧
        ((if sys.filter (fun m => ¬ trimL m.content = []) = [] then (none : Option Role)
          else some .system) = none ∨
         (if sys.filter (fun m => ¬ trimL m.content = []) = [] then (none : Option Role)
          else some .system) = some .system)) ∨
        (∃ lastNs, ([] : List Msg).getLast? = some lastNs ∧
          (if sys.filter (fun m => ¬ trimL m.content = []) = [] then (none : Option Role)
            else some .system) = some lastNs.role)) := by
      left
      refine ⟨rfl, ?_⟩
      by_cases hf : sys.filter (fun m => ¬ trimL m.content = []) = []
      · left; rw [if_pos hf]
      · right; rw [if_neg hf]
    rcases validateGo_ns rest (sys.filter (fun m => ¬ trimL m.content = [])) [] _
      hrest hsp (by simp) hcont List.chain'_nil hlr with ⟨np', heq, hnp', hcont', hchain'⟩
    rw [List.append_nil] at heq
    refine ⟨sys.filter (fun m => ¬ trimL m.content = []), np', ?_, hsp, hnp', hchain'⟩
    rw [heq, List.filter_eq_self.mpr]
    intro a ha
    exact decide_eq_true (hcont' a ha)
  · rfl

/-- C5, witness: the amended alternation guarantee at a concrete input with a
leading system message and a repeated user turn. -/
theorem claim5_witness :
    ∃ sysOut nsOut : List Msg,
      validateMessagePattern ([msgSysS] ++ [msgUserA, msgUserB, msgAssistC]) =
        sysOut ++ nsOut ∧
      (∀ m ∈ sysOut, m.role = .system) ∧
      (∀ m ∈ nsOut, m.role ≠ .system) ∧
      List.Chain' (fun a b => a.role ≠ b.role) nsOut :=
  claim5_amended.1 [msgSysS] [msgUserA, msgUserB, msgAssistC] (by decide) (by decide)

/-- C6: a non-blank non-system message whose role equals the role of the
immediately preceding retained entry (the tracked `lastRole`) is merged into
that entry with a blank-line separator and creates no new entry; concretely,
`[user:"a", user:"b", assistant:"c"]` validates to
`[user:"a\n\nb", assistant:"c"]`. -/
theorem claim6_same_role_merge :
    (∀ (acc : List Msg) (lr : Option Role) (m : Msg) (ms : List Msg) (lm : Msg),
      ¬ trimL m.content = [] → m.role ≠ .system → lr = some m.role →
      acc.getLast? = some lm → lm.role = m.role →
      validateGo acc lr (m :: ms) =
        validateGo
          (acc.dropLast ++
            [({ role := lm.role, content := lm.content ++ nlnl ++ m.content } : Msg)]) lr ms ∧
      (acc.dropLast ++
        [({ role := lm.role, content := lm.content ++ nlnl ++ m.content } : Msg)]).length =
          acc.length) ∧
    validateMessagePattern [msgUserA, msgUserB, msgAssistC] =
      [{ role := .user, content := "a\n\nb".data }, msgAssistC] := by
  exact ⟨validateGo_merge, rfl⟩

/-- C6, witness: the merge step at a concrete repeated-user input. -/
theorem claim6_witness :
    validateGo [msgUserA] (some .user) [msgUserB] =
      validateGo [({ role := .user, content := "a\n\nb".data } : Msg)] (some .user) [] ∧
    ([msgUserA].dropLast ++
      [({ role := Role.user, content := msgUserA.content ++ nlnl ++ msgUserB.content } : Msg)]).length =
        [msgUserA].length := by
  exact claim6_same_role_merge.1 [msgUserA] (some .user) msgUserB [] msgUserA
    (by decide) (by decide) rfl rfl rfl

/-- C7: a non-2xx response makes both senders invoke `onError` once with the
status-bearing error `"HTTP error! status: <n>"`, for every possible body —
the body is never handed to the stream reducer — and neither `onChunk` nor
`onComplete` ever fires. -/
theorem claim7_http_failure :
    ∀ (status : Nat) (body : StreamInput), respOk status = false →
      sendVLLMMessage (Except.ok { status := status, body := body }) =
        ([CbEvent.err (httpErrMsg status)], some (httpErrMsg status)) ∧
      sendOllamaMessage (Except.ok { status := status, body := body }) =
        ([CbEvent.err (httpErrMsg status)], some (httpErrMsg status)) := by
  intro status body h
  constructor
  · simp [sendVLLMMessage, h]
  · simp [sendOllamaMessage, h]

/-- C7, witness: a mocked 500 with a non-trivial body produces exactly the
status-bearing `onError` and nothing else. -/
theorem claim7_witness :
    sendVLLMMessage (Except.ok
      { status := 500, body := { pieces := [frameHel ++ ['\n']], readError := none } }) =
      ([CbEvent.err (httpErrMsg 500)], some (httpErrMsg 500)) ∧
    sendOllamaMessage (Except.ok
      { status := 500, body := { pieces := [frameHel ++ ['\n']], readError := none } }) =
      ([CbEvent.err (httpErrMsg 500)], some (httpErrMsg 500)) :=
  claim7_http_failure 500 { pieces := [frameHel ++ ['\n']], readError := none } (by decide)

/-- C8, counterexample: on the line `data: null` — which carries the
`"data: "` marker, is not `[DONE]`, and whose payload parses to the JSON
value `null` — the parser does not return a StreamChunk: the unguarded
`data.choices` access throws a `TypeError`, which propagates out and makes
the caller skip the line, so the claim's "otherwise returns a StreamChunk"
fails. -/
theorem claim8_counterexample :
    sseDataMark.isPrefixOf "data: null".data = true ∧
    "data: null".data.drop 6 ≠ "[DONE]".data ∧
    jsonParse ("data: null".data.drop 6) = .ok JsonValue.jnull ∧
    parseVLLMChunk "data: null".data = .error typeErrMsg := by
  exact ⟨by decide, by decide, rfl, rfl⟩

/-- C8, amended: the vLLM parser returns `null` for lines without the
`"data: "` marker and an empty-content completion chunk for the literal
`[DONE]` payload; a payload that parses to the JSON literal `null` makes the
unguarded `data.choices` access throw (the frame is then skipped like a
parse error); otherwise — whenever the `choices` access yields a value
without throwing — it returns a StreamChunk whose content is
`choices[0].delta.content` under JS optional-chaining semantics (absent or
null links give the empty string; an object-shaped `choices` is indexed by
its `"0"` property) and whose done flag is true exactly when
`finish_reason` is not the JSON literal `null`. -/
theorem claim8_amended :
    (∀ line : Str, ¬ sseDataMark.isPrefixOf line → parseVLLMChunk line = .ok none) ∧
    (∀ line : Str, sseDataMark.isPrefixOf line → line.drop 6 = "[DONE]".data →
      parseVLLMChunk line =
        .ok (some { content := [], done := true, model := none, created_at := none, id := none })) ∧
    (∀ line : Str, sseDataMark.isPrefixOf line → line.drop 6 ≠ "[DONE]".data →
      jsonParse (line.drop 6) = .ok .jnull →
      parseVLLMChunk line = .error typeErrMsg) ∧
    (∀ (line : Str) (data : JsonValue) (choices : Option JsonValue),
      sseDataMark.isPrefixOf line → line.drop 6 ≠ "[DONE]".data →
      jsonParse (line.drop 6) = .ok data → jsGetProp data "choices".data = .ok choices →
      ∃ c : StreamChunk, parseVLLMChunk line = .ok (some c) ∧
        c.content = jsOrEmpty (jsOptProp (jsOptProp (jsOptIndex0 choices) "delta".data)
          "content".data) ∧
        (c.done = true ↔ jsOptProp (jsOptIndex0 choices) "finish_reason".data ≠
          some JsonValue.jnull)) := by
  refine ⟨?_, ?_, ?_, ?_⟩
  · intro line h
    simp [parseVLLMChunk, h]
  · intro line h1 h2
    simp [parseVLLMChunk, h1, h2]
  · intro line h1 h2 hp
    exact parseVLLMChunk_null_throws line h1 h2 hp
  · intro line data choices h1 h2 hp hc
    refine ⟨_, parseVLLMChunk_eq_of_parse line data choices h1 h2 hp hc, rfl, ?_⟩
    show (! isJsNull _) = true ↔ _
    rw [Bool.not_eq_true']
    exact isJsNull_false_iff _

/-- C8, witness: the four cases at concrete lines — a non-data line, the
`[DONE]` sentinel, the throwing `data: null` line, and a JSON event carrying
delta `"hi"` with `finish_reason: null`. -/
theorem claim8_witness :
    parseVLLMChunk "event: ping".data = .ok none ∧
    parseVLLMChunk "data: [DONE]".data =
      .ok (some { content := [], done := true, model := none, created_at := none, id := none }) ∧
    parseVLLMChunk "data: null ".data = .error typeErrMsg ∧
    (∃ c : StreamChunk, parseVLLMChunk vllmFrameHi = .ok (some c) ∧
      c.content = jsOrEmpty (jsOptProp (jsOptProp (jsOptIndex0 vllmFrameHiChoices)
        "delta".data) "content".data) ∧
      (c.done = true ↔ jsOptProp (jsOptIndex0 vllmFrameHiChoices) "finish_reason".data ≠
        some JsonValue.jnull)) := by
  exact ⟨claim8_amended.1 _ (by decide), claim8_amended.2.1 _ (by decide) (by decide),
    claim8_amended.2.2.1 "data: null ".data (by decide) (by decide) (by rfl),
    claim8_amended.2.2.2 vllmFrameHi vllmFrameHiJson vllmFrameHiChoices
      (by decide) (by decide) (by rfl) (by rfl)⟩

/-- C9, counterexample: an `addMessage` call with a whitespace-only message on
an over-bound in-memory history (reachable via `importHistory` /
`loadConversationHistory`, which do not truncate) leaves 11 > 10 messages in
place, so "after every addMessage call the history is bounded to at most
`2*MAX_HISTORY_TURNS` messages" fails. -/
theorem claim9_counterexample :
    (addMessage (List.replicate 11 storedM) " ".data true []).1 = List.replicate 11 storedM ∧
    (List.replicate 11 storedM).length > MAX_HISTORY_TURNS * 2 := by
  exact ⟨rfl, by decide⟩

/-- C9, amended: after every `addMessage` call with a non-whitespace message,
the history holds `min (previous + 1) (2*MAX_HISTORY_TURNS)` messages and is
a suffix of the previous history plus the new entry (FIFO eviction of the
oldest, most recent kept in order), and a save is triggered; a
whitespace-only call leaves the history untouched. -/
theorem claim9_amended :
    ∀ (history : List StoredMsg) (m : Str) (u : Bool) (s : Str),
      ¬ trimL m = [] →
      (addMessage history m u s).1.length =
          min (history.length + 1) (MAX_HISTORY_TURNS * 2) ∧
      (addMessage history m u s).1.length ≤ MAX_HISTORY_TURNS * 2 ∧
      (addMessage history m u s).1 <:+
        (history ++ [{ content := m, isUser := u, selection := s }]) ∧
      (addMessage history m u s).2 = true := by
  intro history m u s h
  by_cases hlen :
    (history ++ [({ content := m, isUser := u, selection := s } : StoredMsg)]).length >
      MAX_HISTORY_TURNS * 2
  · rw [List.length_append, List.length_singleton] at hlen
    refine ⟨?_, ?_, ?_, ?_⟩
    · simp only [addMessage, if_neg h]
      rw [if_pos (by simpa using hlen)]
      simp only [List.length_drop, List.length_append, List.length_singleton]
      omega
    · simp only [addMessage, if_neg h]
      rw [if_pos (by simpa using hlen)]
      simp only [List.length_drop, List.length_append, List.length_singleton]
      omega
    · simp only [addMessage, if_neg h]
      rw [if_pos (by simpa using hlen)]
      exact List.drop_suffix _ _
    · simp [addMessage, h]
  · rw [List.length_append, List.length_singleton] at hlen
    refine ⟨?_, ?_, ?_, ?_⟩
    · simp only [addMessage, if_neg h]
      rw [if_neg (by simpa using hlen)]
      simp only [List.length_append, List.length_singleton]
      omega
    · simp only [addMessage, if_neg h]
      rw [if_neg (by simpa using hlen)]
      simp only [List.length_append, List.length_singleton]
      omega
    · simp only [addMessage, if_neg h]
      rw [if_neg (by simpa using hlen)]
    · simp [addMessage, h]

/-- C9, witness: the amended bound at a concrete small history. -/
theorem claim9_witness :
    (addMessage [storedM] "hi".data true []).1.length =
        min ([storedM].length + 1) (MAX_HISTORY_TURNS * 2) ∧
    (addMessage [storedM] "hi".data true []).1.length ≤ MAX_HISTORY_TURNS * 2 ∧
    (addMessage [storedM] "hi".data true []).1 <:+
      ([storedM] ++ [{ content := "hi".data, isUser := true, selection := [] }]) ∧
    (addMessage [storedM] "hi".data true []).2 = true :=
  claim9_amended [storedM] "hi".data true [] (by decide)

/-- C10: an empty or whitespace-only message makes `addMessage` return
immediately — the history is unchanged and no save to storage is
triggered. -/
theorem claim10_blank_message_noop :
    ∀ (history : List StoredMsg) (m : Str) (u : Bool) (s : Str),
      (∀ c ∈ m, c.isWhitespace) →
      addMessage history m u s = (history, false) := by
  intro history m u s h
  have ht : trimL m = [] := (trimL_eq_nil_iff m).mpr h
  simp [addMessage, ht]

/-- C10, witness: a two-space message on a singleton history is a no-op. -/
theorem claim10_witness :
    addMessage [storedM] "  ".data true [] = ([storedM], false) :=
  claim10_blank_message_noop [storedM] "  ".data true [] (by decide)

end LLMExt
